import Mathlib

set_option maxRecDepth 8000

/-!
Verification development for the `boot` IRC bot (Rust sources under `src/`).

The definitions below are a shallow embedding of the bot's command
classifier (`process_commands` in `src/bot.rs`), its notification /
seen / tell / location handlers (`src/bot.rs`, `src/sqlite.rs`) and the
sparkline renderer (`graph` in `src/bot.rs`).

Modelling conventions:
* Rust `&str` / `String` become Lean `String`; `split_whitespace` is
  modelled by an explicit iterator state (`Toks`) holding the not yet
  consumed characters, exactly as the Rust iterator does.
* Rust `to_lowercase` / SQLite `COLLATE NOCASE` / `eq_ignore_ascii_case`
  are all modelled with `lowerStr`, which lowers exactly the ASCII
  letters `A`-`Z` (the same folding SQLite's NOCASE and
  `eq_ignore_ascii_case` use; `to_lowercase` agrees on ASCII input).
* `f32` arithmetic in the sparkline is modelled over `ℚ` with exact
  arithmetic; `f32::round` (round half away from zero) is `rustRound`,
  the `as usize` cast (which saturates negatives to `0`) is `Int.toNat`.
* Fallible SQLite calls are modelled by `Except` parameters at the
  handler boundary, or by pure list-of-rows stores where the claim is
  about the row-level behaviour.
-/

/-! ## String primitives

List-based models of the Rust string primitives the bot uses.  They are
defined over `String.data` so that every definition in this file
computes by kernel reduction. -/

/-- Rust `str::to_lowercase`, `eq_ignore_ascii_case` folding and SQLite
`COLLATE NOCASE`: ASCII lowering, character by character. -/
def lowerStr (s : String) : String := ⟨s.data.map Char.toLower⟩

/-- Rust `str::trim`: strip leading and trailing whitespace. -/
def trimStr (s : String) : String :=
  ⟨((s.data.dropWhile Char.isWhitespace).reverse.dropWhile Char.isWhitespace).reverse⟩

/-- Rust `str::starts_with`. -/
def startsWithStr (s pre : String) : Bool := pre.data.isPrefixOf s.data

/-! ## Whitespace tokenizer (Rust `str::split_whitespace`) -/

/-- Negation of `Char.isWhitespace`, used for token extraction. -/
def notWS (c : Char) : Bool := !c.isWhitespace

/-- State of a `split_whitespace` iterator: the characters that have not
been consumed yet. -/
structure Toks where
  rest : List Char
  deriving DecidableEq, Repr

/-- `Iterator::next`: skip leading whitespace, then return the maximal
run of non-whitespace characters and the state after it. -/
def Toks.next (t : Toks) : Option String × Toks :=
  match t.rest.dropWhile Char.isWhitespace with
  | [] => (none, ⟨[]⟩)
  | c :: cs => (some (String.mk (c :: cs.takeWhile notWS)), ⟨cs.dropWhile notWS⟩)

/-- Helper for `Toks.count`: counts tokens in a character list, tracking
whether we are currently inside a token. -/
def countTokensAux : List Char → Bool → Nat
  | [], _ => 0
  | c :: cs, inTok =>
    if c.isWhitespace then countTokensAux cs false
    else (if inTok then 0 else 1) + countTokensAux cs true

/-- `Iterator::count` on the remaining input (`tokens.count()` in the
source). -/
def Toks.count (t : Toks) : Nat := countTokensAux t.rest false

/-- `SplitWhitespace::remainder`: the not-yet-split rest of the original
string.  (Rust returns `None` once the iterator is exhausted; every use
in the source trims the result and treats `None` and a blank remainder
identically, so returning the leftover slice is faithful.) -/
def Toks.remainder (t : Toks) : Option String := some (String.mk t.rest)

/-! ## The command type (`enum BotTask` in `src/bot.rs`) -/

/-- The command enum produced by the classifier (`Task` in `bot.rs`). -/
inductive BotTask where
  | Ignore
  | Message (text : String)
  | Seen (nick : String)
  | Tell (nick message : String)
  | Weather (loc : Option String)
  | Location (loc : String)
  | Coins (coin time : String)
  | Lastfm (user : String)
  | Hang (letter : String)
  | HangGuess (word : String)
  | HangStart (difficulty : String)
  deriving DecidableEq, Repr

/-! ## The classifier (`process_commands` in `src/bot.rs`) -/

/-- The `bot_prefix` computation of `process_commands`: given the first
token, recognise `./cmd`, `.cmd` (byte length > 1), `!cmd` (byte length
> 1) or a nickname prefix (in which case the sub-command is the next
token, defaulting to `help`).  Returns the recognised sub-command and
the iterator state after it. -/
def botCmd (nick : String) (next : Option String) (t1 : Toks) : Option String × Toks :=
  match next with
  | none => (none, t1)
  | some c =>
    if startsWithStr c "./" then (some (c.drop 2), t1)
    else if startsWithStr c "." && c.utf8ByteSize > 1 then (some (c.drop 1), t1)
    else if startsWithStr c "!" && c.utf8ByteSize > 1 then (some (c.drop 1), t1)
    else if startsWithStr (lowerStr c) nick then
      match t1.next with
      | (some n, t2) => (some n, t2)
      | (none, t2) => (some "help", t2)
    else (none, t1)

/-- The coin-symbol alias list of `process_commands`. -/
def coins : List String :=
  ["btc", "bitcoin", "btcgbp", "eth", "ethereum", "ltc", "xmr", "monero",
   "doge", "coins", "shitcoins"]

/-- The recognised timeframe tokens (`coin_times` in the source). -/
def coin_times : List String :=
  ["1d", "day", "24h", "7d", "w", "1w", "week", "weekly", "14d", "2w",
   "fortnight", "fortnightly", "31d", "30d", "month", "year", "1y", "3y",
   "5y", "spot"]

/-- Rust `eq_ignore_ascii_case`, via ASCII lowering. -/
def eqIgnoreCase (a b : String) : Bool := lowerStr a == lowerStr b

/-- The `match n.to_lowercase()` arm table mapping a recognised
timeframe token (already lowered) to the canonical timeframe. -/
def coinTimeOfLower (l : String) : String :=
  if l = "7d" ∨ l = "w" ∨ l = "1w" ∨ l = "week" ∨ l = "weekly" then "7d"
  else if l = "14d" ∨ l = "2w" ∨ l = "fortnight" ∨ l = "fortnightly" then "14d"
  else if l = "31d" ∨ l = "30d" ∨ l = "month" then "31d"
  else if l = "year" then "1y"
  else if l = "3y" then "3y"
  else if l = "5y" then "5y"
  else "1d"

/-- The `coin_time` computation of the coins arm: the next token is
checked (ASCII case-insensitively) against `coin_times`; recognised
tokens go through `coinTimeOfLower`, anything else gives `"1d"`. -/
def parseCoinTime : Option String → String
  | some n =>
    if coin_times.any (fun e => eqIgnoreCase e n) then coinTimeOfLower (lowerStr n)
    else "1d"
  | none => "1d"

/-- The static help text of the `help` arm. -/
def helpText : String :=
  "Commands: repo | seen <nick> | tell <nick> <message> | weather <location> | loc <location> | <btc(gbp)|eth|ltc|xmr|doge> <day|week|fortnight|month|year> | hang <short|medium|long>"

/-- The sub-command dispatch table of `process_commands` (the big
`match bot_prefix.unwrap()` expression), with the iterator positioned
after the sub-command token. -/
def subcommand (cmd : String) (t : Toks) : BotTask :=
  if cmd = "help" ∨ cmd = "man" ∨ cmd = "manual" then BotTask.Message helpText
  else if cmd = "repo" ∨ cmd = "git" then BotTask.Message "https://github.com/niall-/boot"
  else if cmd = "seen" then
    match t.next with
    | (some nick, _) =>
      if !nick.isEmpty then BotTask.Seen nick else BotTask.Message "Hint: seen <nick>"
    | (none, _) => BotTask.Message "Hint: seen <nick>"
  else if cmd = "tell" then
    match t.next with
    | (some nick, t2) =>
      match t2.remainder with
      | some message =>
        if !(trimStr message).isEmpty then BotTask.Tell nick (trimStr message)
        else BotTask.Message "Hint: tell <nick> <message>"
      | none => BotTask.Message "Hint: tell <nick> <message>"
    | (none, _) => BotTask.Message "Hint: tell <nick> <message>"
  else if cmd = "weather" then
    match t.remainder with
    | some loc =>
      if !(trimStr loc).isEmpty then BotTask.Weather (some (trimStr loc)) else BotTask.Weather none
    | none => BotTask.Weather none
  else if cmd = "loc" ∨ cmd = "location" then
    match t.remainder with
    | some loc =>
      if !(trimStr loc).isEmpty then BotTask.Location (trimStr loc)
      else BotTask.Message "Hint: loc|location <location>"
    | none => BotTask.Message "Hint: loc|location <location>"
  else if coins.any (fun e => e == cmd) then BotTask.Coins cmd (parseCoinTime (t.next).1)
  else if cmd = "lastfm" then
    match t.next with
    | (some nick, _) => BotTask.Lastfm (trimStr nick)
    | (none, _) => BotTask.Message "noob"
  else if cmd = "hang" then
    match t.next with
    | (some l, _) =>
      if lowerStr (trimStr l) = "short" then BotTask.HangStart "short"
      else if lowerStr (trimStr l) = "medium" then BotTask.HangStart "medium"
      else if lowerStr (trimStr l) = "long" then BotTask.HangStart "long"
      else BotTask.HangStart ""
    | (none, _) => BotTask.HangStart ""
  else BotTask.Ignore

/-- The letter test of the non-addressed fallback: the trimmed token has
byte length 1 (Rust `str::len`) and its first character is a lowercase
ASCII letter. -/
def isHangLetter (t : String) : Bool :=
  match (trimStr t).toList.head? with
  | some x => (trimStr t).utf8ByteSize == 1 && ('a' ≤ x && x ≤ 'z')
  | none => false

/-- The non-addressed fallback of `process_commands`: a single bare
token becomes a hangman letter guess (`BotTask.Hang`) if it is one
lowercase letter and a word guess (`BotTask.HangGuess`) otherwise; any
other message is ignored. -/
def hangFallback (next : Option String) (t1 : Toks) : BotTask :=
  match next with
  | some t =>
    if t1.count == 0 then
      if isHangLetter t then BotTask.Hang (trimStr t) else BotTask.HangGuess (trimStr t)
    else BotTask.Ignore
  | none => BotTask.Ignore

/-- The first `tokens.next()` call on a fresh `split_whitespace`
iterator over `msg`. -/
def firstTok (msg : String) : Option String × Toks := Toks.next ⟨msg.toList⟩

/-- `process_commands(nick, msg)` from `src/bot.rs`.  The result is an
`Option` because the source ends with `bot_prefix.unwrap()`; the
`is_none` early return makes that unwrap safe, which is proved below. -/
def process_commands (nick msg : String) : Option BotTask :=
  match firstTok msg with
  | (next, t1) =>
    match botCmd nick next t1 with
    | (bp, t2) =>
      if bp.isNone then some (hangFallback next t1)
      else bp.map (fun p => subcommand p t2)

/-- The message does not address the bot: the `bot_prefix` computation
yields `None` for its first token. -/
def notAddressed (nick msg : String) : Prop :=
  (botCmd nick (firstTok msg).1 (firstTok msg).2).1 = none

instance (nick msg : String) : Decidable (notAddressed nick msg) := by
  unfold notAddressed
  infer_instance

/-! ## Spec-side definitions for the classifier claims -/

/-- The timeframe alias table exactly as the specification words it:
day/24h map to "1d", week/7d to "7d", fortnight/14d to "14d",
month/30d to "31d", year to "1y", "3y"/"5y" pass through, and anything
absent or unrecognized defaults to "1d" (spec-derived definition, for
comparison with `parseCoinTime`). -/
def specTimeframe : Option String → String
  | none => "1d"
  | some n =>
    if lowerStr n = "day" ∨ lowerStr n = "24h" then "1d"
    else if lowerStr n = "week" ∨ lowerStr n = "7d" then "7d"
    else if lowerStr n = "fortnight" ∨ lowerStr n = "14d" then "14d"
    else if lowerStr n = "month" ∨ lowerStr n = "30d" then "31d"
    else if lowerStr n = "year" then "1y"
    else if lowerStr n = "3y" then "3y"
    else if lowerStr n = "5y" then "5y"
    else "1d"

/-- The timeframe table with the full alias sets the code accepts
(amended table): additionally w/1w/weekly map to "7d", 2w/fortnightly
to "14d", 31d to "31d", and every other recognised-or-not token
(including "1d", "day", "24h", "1y" and "spot") to "1d". -/
def amendedTimeframe : Option String → String
  | none => "1d"
  | some n =>
    if lowerStr n = "7d" ∨ lowerStr n = "w" ∨ lowerStr n = "1w" ∨
       lowerStr n = "week" ∨ lowerStr n = "weekly" then "7d"
    else if lowerStr n = "14d" ∨ lowerStr n = "2w" ∨ lowerStr n = "fortnight" ∨
       lowerStr n = "fortnightly" then "14d"
    else if lowerStr n = "31d" ∨ lowerStr n = "30d" ∨ lowerStr n = "month" then "31d"
    else if lowerStr n = "year" then "1y"
    else if lowerStr n = "3y" then "3y"
    else if lowerStr n = "5y" then "5y"
    else "1d"

/-! ## Classifier theorems -/

/-- C5: `process_commands` is total — the final `bot_prefix.unwrap()`
is always safe, every message classifies to some command — and
unrecognized input maps to `Ignore`, never to an error. -/
theorem classify_total_never_fails :
    (∀ nick msg, (process_commands nick msg).isSome = true)
    ∧ process_commands "boot" ".frobnicate" = some BotTask.Ignore := by
  constructor
  · intro nick msg
    unfold process_commands
    rcases hf : firstTok msg with ⟨next, t1⟩
    rcases hb : botCmd nick next t1 with ⟨bp, t2⟩
    cases bp <;> simp [hb]
  · decide

/-- C1 (amended): for every non-addressing message, a single bare token
that is exactly one lowercase ASCII letter classifies as a hangman
letter guess (`Task::Hang`); a single bare token that is not such a
letter classifies as a hangman word guess (`Task::HangGuess`), not as
`Ignore`; and a message with no token or with further words classifies
as `Ignore`. -/
theorem classify_nonaddressed_fallback (nick msg : String) (h : notAddressed nick msg) :
    (∀ t, (firstTok msg).1 = some t → Toks.count (firstTok msg).2 = 0 →
      isHangLetter t = true → process_commands nick msg = some (BotTask.Hang (trimStr t)))
    ∧ (∀ t, (firstTok msg).1 = some t → Toks.count (firstTok msg).2 = 0 →
      isHangLetter t = false → process_commands nick msg = some (BotTask.HangGuess (trimStr t)))
    ∧ ((firstTok msg).1 = none → process_commands nick msg = some BotTask.Ignore)
    ∧ (∀ t, (firstTok msg).1 = some t → Toks.count (firstTok msg).2 ≠ 0 →
      process_commands nick msg = some BotTask.Ignore) := by
  unfold notAddressed at h
  rcases hf : firstTok msg with ⟨next, t1⟩
  rw [hf] at h
  have hpc : process_commands nick msg = some (hangFallback next t1) := by
    unfold process_commands
    rw [hf]
    simp [h]
  refine ⟨?_, ?_, ?_, ?_⟩
  · intro t ht hc hl
    simp only at ht hc
    subst ht
    rw [hpc]
    unfold hangFallback
    simp [hc, hl]
  · intro t ht hc hl
    simp only at ht hc
    subst ht
    rw [hpc]
    unfold hangFallback
    simp [hc, hl]
  · intro ht
    simp only at ht
    subst ht
    rw [hpc]
    rfl
  · intro t ht hc
    simp only at ht hc
    subst ht
    rw [hpc]
    unfold hangFallback
    simp [hc]

/-- C1 witness: the single-letter message "z" from a non-addressing
context classifies as a letter guess. -/
theorem classify_nonaddressed_fallback_witness :
    process_commands "boot" "z" = some (BotTask.Hang (trimStr "z")) :=
  (classify_nonaddressed_fallback "boot" "z" (by decide)).1 "z" (by decide) (by decide)
    (by decide)

/-- C1 counterexample: "hello" does not address the bot and is not a
single lowercase letter, yet it classifies as a hangman word guess, not
as `Ignore` as the claim states. -/
theorem classify_nonaddressed_word_not_ignored :
    notAddressed "boot" "hello" ∧ isHangLetter "hello" = false
    ∧ process_commands "boot" "hello" = some (BotTask.HangGuess "hello")
    ∧ some (BotTask.HangGuess "hello") ≠ some BotTask.Ignore := by
  refine ⟨by decide, by decide, by decide, by decide⟩

/-- C2 (amended): for every own-nickname that is not itself a prefix of
the lone punctuation token (any ordinary nickname), a lone "." or "!"
is not treated as an address prefix — but it classifies as a hangman
word guess, not as `Ignore`. -/
theorem classify_lone_punct (nick : String) :
    (startsWithStr "." nick = false →
      (botCmd nick (some ".") ⟨[]⟩).1 = none
      ∧ process_commands nick "." = some (BotTask.HangGuess "."))
    ∧ (startsWithStr "!" nick = false →
      (botCmd nick (some "!") ⟨[]⟩).1 = none
      ∧ process_commands nick "!" = some (BotTask.HangGuess "!")) := by
  constructor
  · intro h
    have hb : botCmd nick (some ".") ⟨[]⟩ = (none, ⟨[]⟩) := by
      simp [botCmd, h, show lowerStr "." = "." from by decide,
        show startsWithStr "." "./" = false from by decide,
        show ("." : String).utf8ByteSize = 1 from by decide]
    refine ⟨by rw [hb], ?_⟩
    have hf : firstTok "." = (some ".", (⟨[]⟩ : Toks)) := by decide
    have hpc : process_commands nick "." = some (hangFallback (some ".") ⟨[]⟩) := by
      unfold process_commands
      rw [hf]
      simp [hb]
    rw [hpc]
    decide
  · intro h
    have hb : botCmd nick (some "!") ⟨[]⟩ = (none, ⟨[]⟩) := by
      simp [botCmd, h, show lowerStr "!" = "!" from by decide,
        show startsWithStr "!" "./" = false from by decide,
        show startsWithStr "!" "." = false from by decide,
        show ("!" : String).utf8ByteSize = 1 from by decide]
    refine ⟨by rw [hb], ?_⟩
    have hf : firstTok "!" = (some "!", (⟨[]⟩ : Toks)) := by decide
    have hpc : process_commands nick "!" = some (hangFallback (some "!") ⟨[]⟩) := by
      unfold process_commands
      rw [hf]
      simp [hb]
    rw [hpc]
    decide

/-- C2 witness: at the concrete nickname "boot" the lone punctuation
tokens are not address prefixes and classify as word guesses. -/
theorem classify_lone_punct_witness :
    process_commands "boot" "." = some (BotTask.HangGuess ".")
    ∧ process_commands "boot" "!" = some (BotTask.HangGuess "!") :=
  ⟨((classify_lone_punct "boot").1 (by decide)).2, ((classify_lone_punct "boot").2 (by decide)).2⟩

/-- C2 counterexample: for the nickname "boot", `classify(nick, ".")`
and `classify(nick, "!")` return a hangman word guess, not `Ignore` as
the claim states. -/
theorem classify_lone_punct_not_ignore :
    process_commands "boot" "." = some (BotTask.HangGuess ".")
    ∧ process_commands "boot" "!" = some (BotTask.HangGuess "!")
    ∧ some (BotTask.HangGuess ".") ≠ some BotTask.Ignore
    ∧ some (BotTask.HangGuess "!") ≠ some BotTask.Ignore := by
  refine ⟨by decide, by decide, by decide, by decide⟩

/-- Every entry of `coin_times` is already ASCII-lowercase. -/
theorem coin_times_lower_fixed : ∀ e ∈ coin_times, lowerStr e = e := by decide

/-- The source timeframe parser agrees pointwise with the amended alias
table. -/
theorem parseCoinTime_eq_amended : ∀ o, parseCoinTime o = amendedTimeframe o := by
  intro o
  match o with
  | none => rfl
  | some n =>
    by_cases hm : lowerStr n ∈ coin_times
    · have ha : coin_times.any (fun e => eqIgnoreCase e n) = true := by
        rw [List.any_eq_true]
        exact ⟨lowerStr n, hm, by simp [eqIgnoreCase, coin_times_lower_fixed _ hm]⟩
      have h2 : parseCoinTime (some n) = coinTimeOfLower (lowerStr n) := by
        simp [parseCoinTime, ha]
      rw [h2]
      simp only [amendedTimeframe]
      revert hm
      generalize lowerStr n = l
      intro hm
      fin_cases hm <;> decide
    · have ha : coin_times.any (fun e => eqIgnoreCase e n) = false := by
        rw [List.any_eq_false]
        intro e he
        have h1 : lowerStr e = e := coin_times_lower_fixed e he
        simp only [eqIgnoreCase, h1]
        cases hcb : (e == lowerStr n) with
        | false => decide
        | true => exact absurd ((eq_of_beq hcb) ▸ he) hm
      have h2 : parseCoinTime (some n) = "1d" := by
        simp [parseCoinTime, ha]
      have hne : ∀ e ∈ coin_times, lowerStr n ≠ e := fun e he heq => hm (heq ▸ he)
      have g1 : ¬(lowerStr n = "7d" ∨ lowerStr n = "w" ∨ lowerStr n = "1w" ∨
          lowerStr n = "week" ∨ lowerStr n = "weekly") := by
        rintro (h | h | h | h | h) <;> exact hne _ (by decide) h
      have g2 : ¬(lowerStr n = "14d" ∨ lowerStr n = "2w" ∨ lowerStr n = "fortnight" ∨
          lowerStr n = "fortnightly") := by
        rintro (h | h | h | h) <;> exact hne _ (by decide) h
      have g3 : ¬(lowerStr n = "31d" ∨ lowerStr n = "30d" ∨ lowerStr n = "month") := by
        rintro (h | h | h) <;> exact hne _ (by decide) h
      have g4 : ¬(lowerStr n = "year") := hne _ (by decide)
      have g5 : ¬(lowerStr n = "3y") := hne _ (by decide)
      have g6 : ¬(lowerStr n = "5y") := hne _ (by decide)
      rw [h2]
      simp only [amendedTimeframe, if_neg g1, if_neg g2, if_neg g3, if_neg g4, if_neg g5,
        if_neg g6]

/-- C8 (amended): the timeframe parser is the amended alias table —
the spec's table extended with the further aliases the code accepts
(w/1w/weekly, 2w/fortnightly, 31d, and the recognised-but-defaulted
tokens day/24h/1d/1y/spot) — it is ASCII case-insensitive, and it
feeds the Coins command. -/
theorem coin_timeframe_amended :
    (∀ o, parseCoinTime o = amendedTimeframe o)
    ∧ (∀ a b, lowerStr a = lowerStr b → parseCoinTime (some a) = parseCoinTime (some b))
    ∧ process_commands "boot" ".btc Week" = some (BotTask.Coins "btc" "7d") := by
  refine ⟨parseCoinTime_eq_amended, ?_, by decide⟩
  intro a b h
  simp only [parseCoinTime, eqIgnoreCase, h]

/-- C8 witness: case-insensitivity at a concrete mixed-case token. -/
theorem coin_timeframe_amended_witness :
    parseCoinTime (some "WeEk") = parseCoinTime (some "week") :=
  coin_timeframe_amended.2.1 "WeEk" "week" (by decide)

/-- C8 counterexample: "weekly" is mapped to "7d" by the code, while
the claim's fixed alias table would default it to "1d". -/
theorem coin_timeframe_weekly_diverges :
    parseCoinTime (some "weekly") = "7d" ∧ specTimeframe (some "weekly") = "1d"
    ∧ ("7d" : String) ≠ "1d" := by
  refine ⟨by decide, by decide, by decide⟩

/-! ## Notifications (`tell` / delivery, `src/sqlite.rs` and `src/bot.rs`) -/

/-- A row of the `notifications` table (`struct Notification`). -/
structure Notification where
  id : Nat
  recipient : String
  via : String
  message : String
  deriving DecidableEq, Repr

/-- `Database::add_notification`: plain INSERT, appending a row (the
`id` column is assigned by SQLite's AUTOINCREMENT). -/
def add_notification (db : List Notification) (entry : Notification) : List Notification :=
  db ++ [entry]

/-- `Database::remove_notification`: DELETE WHERE id = :id. -/
def remove_notification (i : Nat) (db : List Notification) : List Notification :=
  db.filter (fun r => r.id != i)

/-- `Database::check_notification`: SELECT all rows whose recipient
equals the nick, COLLATE NOCASE, in rowid (insertion) order. -/
def db_check_notification (nick : String) (db : List Notification) : List Notification :=
  db.filter (fun r => lowerStr r.recipient == lowerStr nick)

/-- The delivery line `"{nick}, message from {via}: {message}"`. -/
def notifLine (nick : String) (i : Notification) : String :=
  nick ++ ", message from " ++ i.via ++ ": " ++ i.message

/-- Loop body of `check_notification` in `bot.rs`: push the formatted
line, delete the row, and break once more than one line has been
pushed. -/
def check_notification_go (nick : String) :
    List Notification → List Notification → List String → List String × List Notification
  | [], db, acc => (acc.reverse, db)
  | i :: rest, db, acc =>
    let acc2 := notifLine nick i :: acc
    let db2 := remove_notification i.id db
    if acc2.length > 1 then (acc2.reverse, db2)
    else check_notification_go nick rest db2 acc2

/-- `check_notification` from `bot.rs`: query the matching rows, then
format-and-delete them, stopping after two.  Returns the delivered
lines and the store after the deletions.  (A failing SELECT — the `Err`
arm — yields no lines and leaves the store unchanged.) -/
def check_notification (nick : String) (db : List Notification) :
    List String × List Notification :=
  check_notification_go nick (db_check_notification nick db) db []

/-- `check_notification` delivers exactly the first two matching rows
and removes exactly those rows. -/
theorem check_notification_eq (nick : String) (db : List Notification) :
    check_notification nick db =
      (((db_check_notification nick db).take 2).map (notifLine nick),
       ((db_check_notification nick db).take 2).foldl
         (fun d i => remove_notification i.id d) db) := by
  unfold check_notification
  rcases db_check_notification nick db with _ | ⟨a, _ | ⟨b, rest⟩⟩ <;> rfl

/-- C3: notification delivery emits at most 2 lines however many rows
are queued; each delivered notification is removed from the store (the
removal happens before any delivery attempt, so it does not depend on
delivery success); and with exactly 3 pending rows for "bob", one
message delivers the first 2, deletes exactly those, and leaves the
3rd queued. -/
theorem notification_delivery_cap :
    (∀ nick db, (check_notification nick db).1.length ≤ 2)
    ∧ (∀ nick db, check_notification nick db =
        (((db_check_notification nick db).take 2).map (notifLine nick),
         ((db_check_notification nick db).take 2).foldl
           (fun d i => remove_notification i.id d) db))
    ∧ check_notification "bob"
        [⟨1, "bob", "alice", "m1"⟩, ⟨2, "bob", "alice", "m2"⟩, ⟨3, "bob", "alice", "m3"⟩]
      = (["bob, message from alice: m1", "bob, message from alice: m2"],
         [⟨3, "bob", "alice", "m3"⟩]) := by
  refine ⟨?_, check_notification_eq, by decide⟩
  intro nick db
  rw [check_notification_eq]
  simp only [List.length_map]
  exact le_trans (List.length_take_le 2 _) (le_refl 2)

/-! ## Seen (`check_seen` in `src/bot.rs`, `Database::check_seen`) -/

/-- A row of the `seen` table (`struct Seen`).  The stored RFC3339
timestamp text is modelled as epoch seconds (the bot writes
`Utc::now().to_rfc3339()` and parses it back on read). -/
structure Seen where
  username : String
  message : String
  time : Int
  deriving DecidableEq, Repr

/-- `Database::check_seen`: SELECT WHERE username = :nick COLLATE
NOCASE, returning the last matching row (`results.pop()`). -/
def db_check_seen (nick : String) (db : List Seen) : Option Seen :=
  (db.filter (fun r => lowerStr r.username == lowerStr nick)).getLast?

/-- `check_seen` from `bot.rs`.  `q` is the store result
(`Database::check_seen`), `now` the current clock, `humanize` the
`chrono_humanize` rough-precision past-tense renderer applied to
`now - record.time` (the external crate is kept opaque). -/
def check_seen (nick : String) (q : Except Unit (Option Seen)) (now : Int)
    (humanize : Int → String) : String :=
  match q with
  | .ok (some p) =>
    p.username ++ " was last seen " ++ humanize (now - p.time) ++ " " ++ p.message
  | .ok none => nick ++ " has not previously been seen"
  | .error _ => "SQL error"

/-- The `Task::Seen` dispatch arm of `process_messages`: one
`send_privmsg` with the `check_seen` text. -/
def seenReplies (target nick : String) (q : Except Unit (Option Seen)) (now : Int)
    (humanize : Int → String) : List (String × String) :=
  [(target, check_seen nick q now humanize)]

/-- C6: handling Seen(nick) emits exactly one reply: for an existing
record the "was last seen" text with the relative time computed from
`now - record.time`; for a missing record the "has not previously been
seen" text; and on a store error the generic "SQL error" reply. -/
theorem seen_single_reply :
    ∀ target nick now humanize,
      (∀ p, seenReplies target nick (Except.ok (some p)) now humanize
        = [(target, p.username ++ " was last seen " ++ humanize (now - p.time) ++ " "
            ++ p.message)])
      ∧ (seenReplies target nick (Except.ok none) now humanize
        = [(target, nick ++ " has not previously been seen")])
      ∧ (∀ e, seenReplies target nick (Except.error e) now humanize
        = [(target, "SQL error")])
      ∧ (∀ q, (seenReplies target nick q now humanize).length = 1) := by
  intro target nick now humanize
  exact ⟨fun p => rfl, rfl, fun e => rfl, fun q => rfl⟩

/-! ## Tell (`Task::Tell` arm in `process_messages`, `Database::add_notification`) -/

/-- The notification record the Tell arm builds:
`{recipient = nick, via = event source, message}` (the stored id is
assigned by the database). -/
def tellEntry (source nick m : String) : Notification :=
  { id := 0, recipient := nick, via := source, message := m }

/-- The `Task::Tell` arm: persist the entry first; if the store write
fails, log and return without any reply; on success send exactly one
"Ok, I'll tell {nick} that" reply.  `writeFails` abstracts the SQLite
result. -/
def tellHandler (db : List Notification) (target source nick m : String)
    (writeFails : Bool) : List Notification × List (String × String) :=
  if writeFails then (db, [])
  else (add_notification db (tellEntry source nick m),
        [(target, "Ok, I'll tell " ++ nick ++ " that")])

/-- C7: Tell(nick, message) persists {recipient = nick, via = source,
message}; a successful write emits exactly the one confirmation reply;
a failed write emits no reply at all. -/
theorem tell_persist_then_reply :
    ∀ db target source nick m,
      ((tellEntry source nick m).recipient = nick
        ∧ (tellEntry source nick m).via = source
        ∧ (tellEntry source nick m).message = m)
      ∧ tellHandler db target source nick m false
        = (db ++ [tellEntry source nick m], [(target, "Ok, I'll tell " ++ nick ++ " that")])
      ∧ tellHandler db target source nick m true = (db, []) := by
  intro db target source nick m
  exact ⟨⟨rfl, rfl, rfl⟩, rfl, rfl⟩

/-! ## Location cache (`Database::add_location` / `check_location`) -/

/-- The nested address of a geocoded location (`struct Address`). -/
structure Address where
  city : Option String
  country : String
  deriving DecidableEq, Repr

/-- A geocoded location (`struct Location`); the `locations` table
stores `(loc, lat, lon, city, country)`. -/
structure Location where
  lat : String
  lon : String
  address : Address
  deriving DecidableEq, Repr

/-- `Database::add_location`: plain INSERT with `loc` as TEXT PRIMARY
KEY (BINARY collation), so inserting an exactly-equal key fails; no
upsert clause. -/
def add_location (db : List (String × Location)) (loc : String) (entry : Location) :
    Except Unit (List (String × Location)) :=
  if db.any (fun r => r.1 == loc) then Except.error ()
  else Except.ok (db ++ [(loc, entry)])

/-- `Database::check_location`: SELECT WHERE loc = :loc COLLATE NOCASE,
returning the last matching row (`results.pop()`). -/
def check_location (loc : String) (db : List (String × Location)) : Option Location :=
  ((db.filter (fun r => lowerStr r.1 == lowerStr loc)).map Prod.snd).getLast?

/-- C9: the location cache round-trips case-insensitively — after
`add_location db loc rec` succeeds (fresh primary key), looking the
record up under any spelling with the same ASCII lowering returns the
very same record. -/
theorem location_roundtrip (db : List (String × Location)) (rec : Location)
    (loc loc2 : String) (hkey : lowerStr loc = lowerStr loc2)
    (hfresh : ∀ r ∈ db, r.1 ≠ loc) :
    ∃ db2, add_location db loc rec = Except.ok db2
      ∧ check_location loc2 db2 = some rec := by
  refine ⟨db ++ [(loc, rec)], ?_, ?_⟩
  · unfold add_location
    have ha : db.any (fun r => r.1 == loc) = false := by
      rw [List.any_eq_false]
      intro r hr
      cases hcb : (r.1 == loc) with
      | false => decide
      | true => exact absurd (eq_of_beq hcb) (hfresh r hr)
    rw [ha]
    rfl
  · unfold check_location
    rw [List.filter_append]
    have hone : List.filter (fun r => lowerStr r.1 == lowerStr loc2) [(loc, rec)]
        = [(loc, rec)] := by
      simp [List.filter, hkey]
    rw [hone, List.map_append]
    simp [List.getLast?_concat]

/-- C9 witness: "Berlin" then "berlin" on the empty store. -/
theorem location_roundtrip_witness :
    ∃ db2, add_location [] "Berlin" ⟨"52.52", "13.405", ⟨some "Berlin", "Germany"⟩⟩
        = Except.ok db2
      ∧ check_location "berlin" db2 = some ⟨"52.52", "13.405", ⟨some "Berlin", "Germany"⟩⟩ :=
  location_roundtrip [] ⟨"52.52", "13.405", ⟨some "Berlin", "Germany"⟩⟩ "Berlin" "berlin"
    (by decide) (by decide)

/-! ## Sparkline (`graph` in `src/bot.rs`)

`f32` is modelled by `ℚ`; `f32::round` (round half away from zero) by
`rustRound`; the `as usize` cast of a non-negative rounded value by
`Int.toNat` (negatives saturate to 0, exactly as `as usize` does); the
`0.001` literal by `1/1000`. -/

/-- The eight tick glyphs, empty to full. -/
def ticks : List Char := ['▁', '▂', '▃', '▄', '▅', '▆', '▇', '█']

/-- mIRC green colour code, emitted only when colouring is on. -/
def ircGreen (colour : Bool) : String := if colour then "\x0303" else ""

/-- mIRC red colour code, emitted only when colouring is on. -/
def ircRed (colour : Bool) : String := if colour then "\x0304" else ""

/-- mIRC colour reset, emitted only when colouring is on. -/
def ircEsc (colour : Bool) : String := if colour then "\x03" else ""

/-- `f32::MAX`, the initial value of the running minimum. -/
def f32MAX : ℚ := 2 ^ 128 - 2 ^ 104

/-- `f32::round`: round half away from zero. -/
def rustRound (x : ℚ) : ℤ := if 0 ≤ x then ⌊x + 1/2⌋ else ⌈x - 1/2⌉

/-- The running minimum of `graph`: smallest strictly positive price
(`if i < min && i > 0.0`), starting from `f32::MAX`. -/
def gmin (prices : List ℚ) : ℚ :=
  prices.foldl (fun m i => if i < m ∧ 0 < i then i else m) f32MAX

/-- The running maximum of `graph` (`if i > max`), starting from 0. -/
def gmax (prices : List ℚ) : ℚ :=
  prices.foldl (fun m i => if m < i then i else m) 0

/-- The level ratio: `(levels - 1) / (max - min)`, or `1.0` when
`max == min`. -/
def ratioOf (prices : List ℚ) : ℚ :=
  if gmax prices = gmin prices then 1
  else ((ticks.length - 1 : ℕ) : ℚ) / (gmax prices - gmin prices)

/-- The rendering loop of `graph`: `prev` is `initial` for the first
element and the previous price afterwards.  Indexing into the glyph
list is the source's `.nth(ratio).unwrap()`: a failed lookup is `none`
(a Rust panic). -/
def graphAux (colour : Bool) (mn r : ℚ) : ℚ → List ℚ → Option String
  | _, [] => some ""
  | prev, p :: rest =>
    let idx := (rustRound ((p - mn) * r)).toNat
    let cell : Option String :=
      if p ≤ 1/1000 then some " "
      else if prev < p then
        (ticks.get? idx).map (fun ch => ircGreen colour ++ ch.toString ++ ircEsc colour)
      else
        (ticks.get? idx).map (fun ch => ircRed colour ++ ch.toString ++ ircEsc colour)
    match cell, graphAux colour mn r p rest with
    | some s, some s2 => some (s ++ s2)
    | _, _ => none

/-- `graph(initial, prices, colour)` from `src/bot.rs`. -/
def graph (initial : ℚ) (prices : List ℚ) (colour : Bool) : Option String :=
  graphAux colour (gmin prices) (ratioOf prices) initial prices

/-- The sparkline as the specification words it: per price, a blank for
a price ≤ 0.001, otherwise the glyph at level `round((p - min) *
ratio)`, green iff the price strictly exceeds the previous one (the
first compares against `initial`), red otherwise (spec-derived total
rendering, for comparison with `graph`). -/
def graphSpecAux (colour : Bool) (mn r : ℚ) : ℚ → List ℚ → String
  | _, [] => ""
  | prev, p :: rest =>
    (if p ≤ 1/1000 then " "
     else
       (if prev < p then ircGreen colour else ircRed colour)
         ++ (ticks.getD (rustRound ((p - mn) * r)).toNat ' ').toString ++ ircEsc colour)
      ++ graphSpecAux colour mn r p rest

/-- Total spec-side rendering of the sparkline. -/
def graphSpec (initial : ℚ) (prices : List ℚ) (colour : Bool) : String :=
  graphSpecAux colour (gmin prices) (ratioOf prices) initial prices

/-- The running maximum never decreases below its start value. -/
theorem gmax_fold_ge_init (l : List ℚ) :
    ∀ init : ℚ, init ≤ l.foldl (fun m i => if m < i then i else m) init := by
  induction l with
  | nil => intro init; exact le_refl _
  | cons a l ih =>
    intro init
    refine le_trans ?_ (ih (if init < a then a else init))
    by_cases h : init < a
    · rw [if_pos h]; exact le_of_lt h
    · rw [if_neg h]

/-- Every price is bounded by the running maximum. -/
theorem mem_le_gmax_fold (l : List ℚ) (p : ℚ) (hp : p ∈ l) :
    ∀ init : ℚ, p ≤ l.foldl (fun m i => if m < i then i else m) init := by
  induction l with
  | nil => cases hp
  | cons a l ih =>
    intro init
    rcases List.mem_cons.mp hp with rfl | hmem
    · refine le_trans ?_ (gmax_fold_ge_init l (if init < p then p else init))
      by_cases h : init < p
      · rw [if_pos h]
      · rw [if_neg h]; exact le_of_not_lt h
    · exact ih hmem _

/-- The running minimum never exceeds its start value. -/
theorem gmin_fold_le_init (l : List ℚ) :
    ∀ init : ℚ, l.foldl (fun m i => if i < m ∧ 0 < i then i else m) init ≤ init := by
  induction l with
  | nil => intro init; exact le_refl _
  | cons a l ih =>
    intro init
    refine le_trans (ih (if a < init ∧ 0 < a then a else init)) ?_
    by_cases h : a < init ∧ 0 < a
    · rw [if_pos h]; exact le_of_lt h.1
    · rw [if_neg h]

/-- The running minimum is below every strictly positive price. -/
theorem gmin_fold_le_mem (l : List ℚ) (p : ℚ) (hp : p ∈ l) (hpos : 0 < p) :
    ∀ init : ℚ, l.foldl (fun m i => if i < m ∧ 0 < i then i else m) init ≤ p := by
  induction l with
  | nil => cases hp
  | cons a l ih =>
    intro init
    rcases List.mem_cons.mp hp with rfl | hmem
    · refine le_trans (gmin_fold_le_init l (if p < init ∧ 0 < p then p else init)) ?_
      by_cases h : p < init ∧ 0 < p
      · rw [if_pos h]
      · rw [if_neg h]
        rcases not_and_or.mp h with h1 | h1
        · exact le_of_not_lt h1
        · exact absurd hpos h1
    · exact ih hmem _

/-- `rustRound` of a value in `[0, n]` lands in `[0, n]`. -/
theorem rustRound_bounds (x : ℚ) (n : ℕ) (h0 : 0 ≤ x) (hn : x ≤ n) :
    0 ≤ rustRound x ∧ rustRound x ≤ n := by
  rw [rustRound, if_pos h0]
  constructor
  · exact Int.le_floor.mpr (by push_cast; linarith)
  · have : (⌊x + 1/2⌋ : ℤ) ≤ ⌊(n : ℚ) + 1/2⌋ :=
      Int.floor_le_floor (by linarith)
    refine le_trans this (le_of_eq ?_)
    rw [Int.floor_eq_iff]
    constructor
    · push_cast; linarith
    · push_cast; linarith

/-- Index bound: every rendered price (above the blank threshold) maps
to a glyph index between 0 and 7. -/
theorem glyph_index_le_seven (prices : List ℚ) (p : ℚ) (hp : p ∈ prices)
    (hgt : 1/1000 < p) :
    (rustRound ((p - gmin prices) * ratioOf prices)).toNat ≤ 7 := by
  have hpos : 0 < p := lt_trans (by norm_num) hgt
  have hm : gmin prices ≤ p := gmin_fold_le_mem prices p hp hpos f32MAX
  have hM : p ≤ gmax prices := mem_le_gmax_fold prices p hp 0
  have hlen : ((ticks.length - 1 : ℕ) : ℚ) = 7 := by norm_num [ticks]
  by_cases he : gmax prices = gmin prices
  · have hpm : p = gmin prices := le_antisymm (he ▸ hM) hm
    have hx : (p - gmin prices) * ratioOf prices = 0 := by
      rw [hpm]; ring
    rw [hx]
    have := rustRound_bounds 0 7 (le_refl 0) (by norm_num)
    exact Int.toNat_le.mpr (by exact_mod_cast this.2)
  · have hlt : gmin prices < gmax prices := lt_of_le_of_ne (le_trans hm hM) (Ne.symm he)
    have hr : ratioOf prices = 7 / (gmax prices - gmin prices) := by
      rw [ratioOf, if_neg he, hlen]
    have hd : 0 < gmax prices - gmin prices := sub_pos.mpr hlt
    have h0 : 0 ≤ (p - gmin prices) * ratioOf prices := by
      rw [hr]
      exact mul_nonneg (sub_nonneg.mpr hm) (le_of_lt (div_pos (by norm_num) hd))
    have h7 : (p - gmin prices) * ratioOf prices ≤ 7 := by
      rw [hr, mul_div_assoc']
      rw [div_le_iff₀ hd]
      nlinarith [sub_le_sub_right hM (gmin prices)]
    have := rustRound_bounds _ 7 h0 (by exact_mod_cast h7)
    exact Int.toNat_le.mpr (by exact_mod_cast this.2)

/-- Glyph lookup succeeds for indices up to 7. -/
theorem ticks_get_eq_getD (idx : Nat) (h : idx ≤ 7) :
    ticks.get? idx = some (ticks.getD idx ' ') := by
  interval_cases idx <;> rfl

/-- The partial rendering agrees with the total spec rendering whenever
every rendered element's glyph index is in range. -/
theorem graphAux_eq_spec (colour : Bool) (mn r : ℚ) (l : List ℚ)
    (hb : ∀ p ∈ l, ¬p ≤ 1/1000 → (rustRound ((p - mn) * r)).toNat ≤ 7) :
    ∀ prev, graphAux colour mn r prev l = some (graphSpecAux colour mn r prev l) := by
  induction l with
  | nil => intro prev; rfl
  | cons p rest ih =>
    intro prev
    have hrest : ∀ q ∈ rest, ¬q ≤ 1/1000 → (rustRound ((q - mn) * r)).toNat ≤ 7 :=
      fun q hq => hb q (List.mem_cons_of_mem p hq)
    rw [graphAux, graphSpecAux]
    rw [ih hrest p]
    by_cases h1 : p ≤ 1/1000
    · rw [if_pos h1, if_pos h1]
    · have hidx := ticks_get_eq_getD _ (hb p (List.mem_cons_self p rest) h1)
      rw [if_neg h1, if_neg h1, hidx]
      by_cases h2 : prev < p
      · rw [if_pos h2, if_pos h2]
        rfl
      · rw [if_neg h2, if_neg h2]
        rfl

/-- The sparkline never panics: `graph` always produces the total
spec-side rendering. -/
theorem graph_eq_graphSpec (initial : ℚ) (prices : List ℚ) (colour : Bool) :
    graph initial prices colour = some (graphSpec initial prices colour) := by
  unfold graph graphSpec
  refine graphAux_eq_spec colour (gmin prices) (ratioOf prices) prices ?_ initial
  intro p hp hgt
  exact glyph_index_le_seven prices p hp (lt_of_not_ge (fun hle => hgt (by linarith)))

/-- C10: `graph` never panics — for every initial value and price list
it returns a string (the `.nth(idx).unwrap()` lookups always succeed),
because every price above the blank threshold gets a glyph index
within 0..=7. -/
theorem graph_never_panics :
    (∀ initial prices colour, (graph initial prices colour).isSome = true)
    ∧ (∀ (prices : List ℚ) (p : ℚ), p ∈ prices → 1/1000 < p →
        (rustRound ((p - gmin prices) * ratioOf prices)).toNat ≤ 7) := by
  constructor
  · intro initial prices colour
    rw [graph_eq_graphSpec]
    rfl
  · exact glyph_index_le_seven

/-- `rustRound` at a concrete non-negative value. -/
theorem rustRound_eq_nat (x : ℚ) (n : ℕ) (h0 : 0 ≤ x) (h1 : (n : ℚ) ≤ x + 1/2)
    (h2 : x + 1/2 < n + 1) : rustRound x = n := by
  rw [rustRound, if_pos h0, Int.floor_eq_iff]
  constructor
  · push_cast
    linarith
  · push_cast
    linarith

/-- C4: the sparkline computes with 8 glyph levels, ratio
`(levels-1)/(max-min)` (1.0 when max = min), glyph index
`round((p - min) * ratio)`, green iff the price strictly exceeds the
previous one (initial for the first), red otherwise, blank for prices
≤ 0.001; in particular `graph 10 [10, 12, 8] true` is red, green, red
with min 8, max 12 and ratio 7/4. -/
theorem sparkline_algorithm_and_example :
    (∀ initial prices colour, graph initial prices colour = some (graphSpec initial prices colour))
    ∧ gmin [10, 12, 8] = 8 ∧ gmax [10, 12, 8] = 12 ∧ ratioOf [10, 12, 8] = 7 / 4
    ∧ graph 10 [10, 12, 8] true = some "\x0304▅\x03\x0303█\x03\x0304▁\x03"
    ∧ graph 1 [1 / 2000] true = some " " := by
  have hmin : gmin [10, 12, 8] = 8 := by
    norm_num [gmin, f32MAX, List.foldl_cons, List.foldl_nil]
  have hmax : gmax [10, 12, 8] = 12 := by
    norm_num [gmax, List.foldl_cons, List.foldl_nil]
  have hr : ratioOf [10, 12, 8] = 7 / 4 := by
    rw [ratioOf, hmin, hmax, if_neg (by norm_num)]
    norm_num [ticks]
  have i1 : rustRound ((7 : ℚ) / 2) = 4 :=
    rustRound_eq_nat _ 4 (by norm_num) (by norm_num) (by norm_num)
  have i2 : rustRound ((7 : ℚ)) = 7 :=
    rustRound_eq_nat _ 7 (by norm_num) (by norm_num) (by norm_num)
  have i3 : rustRound ((0 : ℚ)) = 0 :=
    rustRound_eq_nat _ 0 (by norm_num) (by norm_num) (by norm_num)
  refine ⟨graph_eq_graphSpec, hmin, hmax, hr, ?_, ?_⟩
  · unfold graph
    rw [hmin, hr]
    rw [graphAux, graphAux, graphAux, graphAux]
    norm_num [i1, i2, i3]
    rfl
  · unfold graph
    rw [graphAux, graphAux]
    norm_num
